import Mathlib

/-!
Verification of the daLUKE NER data-preparation pipeline (`daluke/ner/data.py`
and the top-k accuracy helper of `daluke/pretrain/analysis.py` /
`daluke/analysis/pretrain.py`) against its natural-language specification.

Each Python function the claims touch is embedded shallowly: Python lists
become `List`, NumPy integer arrays become `List Nat` / functions into `Int`,
dictionaries keyed by spans become association lists with `Nodup` keys, the
mutable `while` loop of `_add_extra_sentence_boundaries` becomes a fuel-indexed
step function whose `crash` constructor records the `IndexError` that
`np.cumsum([])[-1]` raises, and `random.shuffle` becomes universal
quantification over permutations of the list being shuffled.
-/

namespace Daluke

/-! ### `DaNE.build` truncation (src/daluke/ner/data.py lines 259-261)

`self.examples = self._build_examples(sentence_boundaries)` is immediately
followed by `self.examples = self.examples[:10]`, whatever the split or batch
size. The slice on a Python list is `List.take`. -/

/-- The examples `DaNE.build` retains out of the list `_build_examples`
returned: the Python slice `self.examples[:10]`. -/
def DaNE_build_retained (built : List Nat) : List Nat :=
  built.take 10

/-- C10: `DaNE.build` keeps at most the first 10 constructed examples: the
retained list has length `min 10 n` where `n` is the number of constructed
examples, and it is an initial segment of the constructed list. -/
theorem DaNE_build_retains_first_ten (built : List Nat) :
    (DaNE_build_retained built).length = min 10 built.length ∧
      ∃ rest, built = DaNE_build_retained built ++ rest := by
  refine ⟨List.length_take 10 built, built.drop 10, ?_⟩
  exact (List.take_append_drop 10 built).symm

/-! ### The two `assert`s of `_build_examples` (src/daluke/ner/data.py lines 114-117)

`true_entity_spans` is a Python dict whose keys are sub-token coordinate pairs
`(start, end)`.  The first assert is

  `assert all(e-s <= self.max_entity_span for e, s in true_entity_spans)`

Iterating a dict yields its keys, and the tuple pattern `e, s` binds `e` to the
first component (the start) and `s` to the second (the end), so the checked
quantity is `start - end`, not the span length `end - start`.  The second
assert is `assert len(true_entity_spans) < self.max_entities`. -/

/-- The boolean the first assert of `_build_examples` evaluates: for every key
`(e, s)` of `true_entity_spans` (so `e` = start, `s` = end), `e - s <=
max_entity_span`, in Python's exact (signed) integer arithmetic. -/
def build_examples_span_assert (true_spans : List (Nat × Nat)) (max_entity_span : Nat) : Bool :=
  true_spans.all fun p => decide ((p.1 : Int) - (p.2 : Int) ≤ (max_entity_span : Int))

/-- The boolean the second assert of `_build_examples` evaluates:
`len(true_entity_spans) < self.max_entities`. -/
def build_examples_count_assert (true_spans : List (Nat × Nat)) (max_entities : Nat) : Bool :=
  decide (true_spans.length < max_entities)

/-- The span-length assert is vacuous: for any span set whose keys are ordered
pairs (start ≤ end, as every real sub-token span is), it evaluates to `true`
whatever `max_entity_span` is, because it compares `start - end ≤
max_entity_span` and `start - end ≤ 0`. -/
theorem build_examples_span_assert_vacuous (true_spans : List (Nat × Nat))
    (max_entity_span : Nat) (h : ∀ p ∈ true_spans, p.1 ≤ p.2) :
    build_examples_span_assert true_spans max_entity_span = true := by
  simp only [build_examples_span_assert, List.all_eq_true, decide_eq_true_eq]
  intro p hp
  have := h p hp
  omega

/-- C2: the code deviates from the claim.  With a single gold span `(0, 5)` of
sub-token length 5 and `max_entity_span = 1`, the span-length assert passes
(construction does not fail) although the claim requires a fatal failure; the
gold-span-count assert, by contrast, does fail for `max_entities = 1` exactly
as the claim states. -/
theorem build_examples_asserts_c2 :
    build_examples_span_assert [(0, 5)] 1 = true ∧
      (5 : Nat) - 0 > 1 ∧
      build_examples_count_assert [(0, 5)] 1 = false := by
  decide

/-! ### `NERBatchedExamples.build` (src/daluke/ner/data.py lines 42-51)

The `return cls(words, entities, word_mask_labels, word_mask, ent_mask_labels,
ent_mask)` statement names four variables that are bound nowhere in the
enclosing scope (neither parameters, nor locals, nor globals of the module), so
every call raises `NameError` before any batch is produced. -/

/-- The names bound in the scope of `NERBatchedExamples.build` when its
`return` statement executes: the parameters and the single assignment
`words, entities = cls.collate(...)`. -/
def ner_batched_build_scope : List String :=
  ["cls", "examples", "device", "cut_extra_padding", "words", "entities"]

/-- The names the `return` statement of `NERBatchedExamples.build` reads. -/
def ner_batched_build_returned : List String :=
  ["words", "entities", "word_mask_labels", "word_mask", "ent_mask_labels", "ent_mask"]

/-- C7: `NERBatchedExamples.build` cannot return a batch: its `return`
statement reads names (`word_mask_labels`, `word_mask`, `ent_mask_labels`,
`ent_mask`) that are not bound in its scope, so Python raises `NameError` on
every call; in particular the first unbound name it reads is
`word_mask_labels`. -/
theorem ner_batched_build_reads_unbound_names :
    (ner_batched_build_returned.all fun n => ner_batched_build_scope.contains n) = false ∧
      (ner_batched_build_returned.filter fun n =>
        !ner_batched_build_scope.contains n).head? = some "word_mask_labels" := by
  decide

/-! ### `Words.build` (daluke/data.py, not under src/; pinned by src/daluke/test/test_data.py)

`test_words` fixes its behaviour on `[22, 48, 2]` with `max_len = 10`: ids
`[3, 22, 48, 2, 3, 0, 0, 0, 0, 0]` and attention mask
`[1, 1, 1, 1, 1, 0, 0, 0, 0, 0]` (both sentinel ids are 3 for the default
tokenizer, the pad id is 0). -/

/-- Modelled from the spec: `daluke.data.Words.build` is not under src/ (only
its test and callers are).  Spec §4.4: "prepend a start sentinel, append an
end sentinel, right-pad with a pad id to `max_seq_length`".  `cls_id` is the
start sentinel, `sep_id` the end sentinel. -/
def Words_build_ids (ids : List Nat) (max_len cls_id sep_id pad_id : Nat) : List Nat :=
  (cls_id :: ids ++ [sep_id]) ++ List.replicate (max_len - (ids.length + 2)) pad_id

/-- Modelled from the spec: the attention mask of `daluke.data.Words.build`
(not under src/).  Spec §4.4: "attention mask marks all non-pad positions",
i.e. 1 on the `ids.length + 2` occupied positions and 0 on the padding. -/
def Words_build_attention_mask (ids : List Nat) (max_len : Nat) : List Nat :=
  List.replicate (ids.length + 2) 1 ++ List.replicate (max_len - (ids.length + 2)) 0

/-- C8 counterexample: at the repository's own test input (`[22, 48, 2]`,
`max_len = 10`, both sentinels 3, pad 0) the model reproduces the tensors the
test asserts, the input length 3 is at most `max_len - 2`, and yet the last
element of the built ids is the pad id 0, not the end sentinel 3 — refuting
the claim that `ids[-1]` is the end sentinel whenever the input fits. -/
theorem Words_build_last_is_pad_cex :
    Words_build_ids [22, 48, 2] 10 3 3 0 = [3, 22, 48, 2, 3, 0, 0, 0, 0, 0] ∧
      Words_build_attention_mask [22, 48, 2] 10 = [1, 1, 1, 1, 1, 0, 0, 0, 0, 0] ∧
      [22, 48, 2].length + 2 ≤ 10 ∧
      (Words_build_ids [22, 48, 2] 10 3 3 0).getLastD 7 = 0 ∧
      (0 : Nat) ≠ 3 := by
  decide

/-- C8 (amended): whenever the input length is at most `max_len - 2`, the
built ids have length exactly `max_len`, start with the start sentinel, carry
the end sentinel at position `ids.length + 1` (the last attended position —
it is the final element exactly when the input fills the sequence), and the
attention mask is 1 exactly on the `ids.length + 2` occupied positions. -/
theorem Words_build_spec (ids : List Nat) (max_len cls_id sep_id pad_id : Nat)
    (h : ids.length + 2 ≤ max_len) :
    (Words_build_ids ids max_len cls_id sep_id pad_id).length = max_len ∧
      (Words_build_ids ids max_len cls_id sep_id pad_id).getD 0 pad_id = cls_id ∧
      (Words_build_ids ids max_len cls_id sep_id pad_id).getD (ids.length + 1) pad_id
        = sep_id ∧
      (∀ i, i < max_len →
        (Words_build_attention_mask ids max_len).getD i 2
          = if i < ids.length + 2 then 1 else 0) ∧
      (ids.length + 2 = max_len →
        (Words_build_ids ids max_len cls_id sep_id pad_id).getLastD pad_id = sep_id) := by
  refine ⟨?_, ?_, ?_, ?_, ?_⟩
  · simp only [Words_build_ids, List.length_append, List.length_cons,
      List.length_nil, List.length_replicate]
    omega
  · rfl
  · show (cls_id :: (ids ++ [sep_id]) ++ _).getD (ids.length + 1) pad_id = sep_id
    rw [List.getD_eq_getElem?_getD, List.getElem?_append_left, List.getElem?_cons_succ,
      List.getElem?_append_right (le_refl _)]
    · simp
    · simp only [List.length_cons, List.length_append, List.length_singleton]
      omega
  · intro i hi
    by_cases hlt : i < ids.length + 2
    · rw [Words_build_attention_mask, List.getD_eq_getElem?_getD,
        List.getElem?_append_left (by simpa using hlt)]
      simp [List.getElem?_replicate, hlt]
    · rw [Words_build_attention_mask, List.getD_eq_getElem?_getD,
        List.getElem?_append_right (by simpa using hlt)]
      have : i - (ids.length + 2) < max_len - (ids.length + 2) := by omega
      simp [List.getElem?_replicate, this, hlt]
  · intro hfull
    rw [Words_build_ids, hfull, Nat.sub_self, List.replicate_zero, List.append_nil]
    show (cls_id :: (ids ++ [sep_id])).getLastD pad_id = sep_id
    rw [List.getLastD_cons, List.getLastD_eq_getLast?, List.getLast?_append]
    rfl

/-- C8 witness: the amended statement instantiated at the repository's test
input. -/
theorem Words_build_spec_witness :
    [22, 48, 2].length + 2 ≤ 10 ∧
      ((Words_build_ids [22, 48, 2] 10 3 3 0).length = 10 ∧
        (Words_build_ids [22, 48, 2] 10 3 3 0).getD 0 0 = 3 ∧
        (Words_build_ids [22, 48, 2] 10 3 3 0).getD ([22, 48, 2].length + 1) 0 = 3 ∧
        (∀ i, i < 10 →
          (Words_build_attention_mask [22, 48, 2] 10).getD i 2
            = if i < [22, 48, 2].length + 2 then 1 else 0) ∧
        ([22, 48, 2].length + 2 = 10 →
          (Words_build_ids [22, 48, 2] 10 3 3 0).getLastD 0 = 3)) :=
  ⟨by decide, Words_build_spec [22, 48, 2] 10 3 3 0 (by decide)⟩

/-! ### `_generate_all_entity_spans` (src/daluke/ner/data.py lines 158-168)

The double loop `for i in range(len(token_ids)): for j in range(i+1,
len(token_ids))` appends `(i, j)` when `(i, j) not in true_spans` and
`cumlength[j] - cumlength[i] <= max_entity_span`.  Only `len(token_ids)` and
`cumlength` matter, so the embedding takes `n` and `cumlength : Nat → Int`
(`cumlength` is a NumPy integer array).  Python's `range(i+1, n)` is
`List.range' (i+1) (n - (i+1))`.  `random.shuffle` permutes `possible_spans`
in place; it is modelled by quantifying over every permutation.  The final
`possible_spans[:max_entities-len(true_spans)]` slice is `List.take`: the
enclosing `_build_examples` has already asserted
`len(true_spans) < max_entities`, so the slice bound is positive and Python
and `Nat` slicing agree. -/

/-- The candidate pool `possible_spans` as `_generate_all_entity_spans` builds
it before shuffling. -/
def generate_all_entity_spans_pool (true_spans : List (Nat × Nat)) (n : Nat)
    (cumlength : Nat → Int) (max_entity_span : Nat) : List (Nat × Nat) :=
  (List.range n).flatMap fun i =>
    ((List.range' (i + 1) (n - (i + 1))).filter fun j =>
      decide ((i, j) ∉ true_spans ∧ cumlength j - cumlength i ≤ (max_entity_span : Int))).map
      fun j => (i, j)

/-- The value `_generate_all_entity_spans` returns, as a function of the
shuffled pool: `[*possible_spans[:max_entities-len(true_spans)],
*true_spans.keys()]`. -/
def generate_all_entity_spans (true_spans : List (Nat × Nat)) (shuffled : List (Nat × Nat))
    (max_entities : Nat) : List (Nat × Nat) :=
  shuffled.take (max_entities - true_spans.length) ++ true_spans

/-- C6: the negative-candidate pool contains a pair `(i, j)` exactly when
`i < j`, both are indices below `n = len(token_ids)`, the pair does not
coincide with a gold span, and the sub-token count the code attributes to it,
`cumlength[j] - cumlength[i]`, is at most `max_entity_span`; in particular
every non-excluded pair is in the pool. -/
theorem mem_generate_all_entity_spans_pool (true_spans : List (Nat × Nat)) (n : Nat)
    (cumlength : Nat → Int) (max_entity_span : Nat) (p : Nat × Nat) :
    p ∈ generate_all_entity_spans_pool true_spans n cumlength max_entity_span ↔
      p.1 < p.2 ∧ p.2 < n ∧ p ∉ true_spans ∧
        cumlength p.2 - cumlength p.1 ≤ (max_entity_span : Int) := by
  obtain ⟨a, b⟩ := p
  simp only [generate_all_entity_spans_pool, List.mem_flatMap, List.mem_map,
    List.mem_filter, List.mem_range, List.mem_range'_1, decide_eq_true_eq]
  constructor
  · rintro ⟨i, hi, j, ⟨⟨hj1, hj2⟩, hcond⟩, hp⟩
    obtain ⟨rfl, rfl⟩ : i = a ∧ j = b := by
      have := Prod.mk.injEq i j a b ▸ hp
      exact this
    exact ⟨by omega, by omega, hcond.1, hcond.2⟩
  · rintro ⟨hab, hbn, hmem, hlen⟩
    exact ⟨a, by omega, b, ⟨⟨by omega, by omega⟩, hmem, hlen⟩, rfl⟩

/-- The pool is duplicate-free: each inner list enumerates distinct `j`s with
a fixed first component `i`, and distinct `i`s give disjoint inner lists. -/
theorem generate_all_entity_spans_pool_nodup (true_spans : List (Nat × Nat)) (n : Nat)
    (cumlength : Nat → Int) (max_entity_span : Nat) :
    (generate_all_entity_spans_pool true_spans n cumlength max_entity_span).Nodup := by
  rw [generate_all_entity_spans_pool, List.nodup_flatMap]
  constructor
  · intro i _
    refine List.Nodup.map ?_ ((List.nodup_range' _ _).filter _)
    intro x y h
    exact congrArg Prod.snd h
  · refine (List.pairwise_lt_range n).imp ?_
    intro i j hij
    intro p hp hq
    simp only [List.mem_map, List.mem_filter] at hp hq
    obtain ⟨_, _, h1⟩ := hp
    obtain ⟨_, _, h2⟩ := hq
    have e1 : p.1 = i := congrArg Prod.fst h1.symm
    have e2 : p.1 = j := congrArg Prod.fst h2.symm
    omega

/-- C1: when every gold span respects the limits (sub-token length at most
`max_entity_span` and strictly fewer gold spans than `max_entities`), the list
`_generate_all_entity_spans` returns is duplicate-free, has exactly
`min max_entities (|gold| + |pool|)` entries, and contains every gold span —
for every outcome `shuffled` of the random shuffle of the pool. -/
theorem generate_all_entity_spans_spec (true_spans shuffled : List (Nat × Nat))
    (n max_entities max_entity_span : Nat) (cumlength : Nat → Int)
    (hperm : shuffled.Perm (generate_all_entity_spans_pool true_spans n cumlength
      max_entity_span))
    (hnodup : true_spans.Nodup)
    (_hspan : ∀ p ∈ true_spans, (p.2 : Int) - (p.1 : Int) ≤ (max_entity_span : Int))
    (hcount : true_spans.length < max_entities) :
    (generate_all_entity_spans true_spans shuffled max_entities).Nodup ∧
      (generate_all_entity_spans true_spans shuffled max_entities).length
        = min max_entities (true_spans.length +
            (generate_all_entity_spans_pool true_spans n cumlength max_entity_span).length) ∧
      ∀ s ∈ true_spans, s ∈ generate_all_entity_spans true_spans shuffled max_entities := by
  have hshufnd : shuffled.Nodup :=
    (hperm.nodup_iff).2 (generate_all_entity_spans_pool_nodup _ _ _ _)
  have htakend : (shuffled.take (max_entities - true_spans.length)).Nodup :=
    (List.take_sublist _ _).nodup hshufnd
  refine ⟨?_, ?_, ?_⟩
  · rw [generate_all_entity_spans, List.nodup_append]
    refine ⟨htakend, hnodup, ?_⟩
    intro p hp hp'
    have hpool : p ∈ generate_all_entity_spans_pool true_spans n cumlength max_entity_span :=
      hperm.mem_iff.1 ((List.take_sublist _ _).subset hp)
    exact ((mem_generate_all_entity_spans_pool _ _ _ _ p).1 hpool).2.2.1 hp'
  · rw [generate_all_entity_spans, List.length_append, List.length_take,
      hperm.length_eq]
    omega
  · intro s hs
    exact List.mem_append_right _ hs

/-- C1 witness: one segment of three words with a single gold span `(0, 2)`,
`max_entities = 3`, `max_entity_span = 4`, `cumlength i = i + 1`, and the
identity shuffle. -/
theorem generate_all_entity_spans_spec_witness :
    (generate_all_entity_spans [(0, 2)]
        (generate_all_entity_spans_pool [(0, 2)] 3 (fun i => (i : Int) + 1) 4) 3).Nodup ∧
      (generate_all_entity_spans [(0, 2)]
          (generate_all_entity_spans_pool [(0, 2)] 3 (fun i => (i : Int) + 1) 4) 3).length
        = min 3 ([(0, 2)].length +
            (generate_all_entity_spans_pool [(0, 2)] 3 (fun i => (i : Int) + 1) 4).length) ∧
      ∀ s ∈ [(0, 2)], s ∈ generate_all_entity_spans [(0, 2)]
        (generate_all_entity_spans_pool [(0, 2)] 3 (fun i => (i : Int) + 1) 4) 3 :=
  generate_all_entity_spans_spec [(0, 2)] _ 3 3 4 (fun i => (i : Int) + 1)
    (List.Perm.refl _) (by decide) (by decide) (by decide)

/-! ### `_add_extra_sentence_boundaries` (src/daluke/ner/data.py lines 199-215)

The function scans `bounds`; for the first segment whose total sub-token count
plus 2 exceeds `max_seq_length` it inserts a new boundary before that
segment's upper bound at `sent_start + split_candidate`, where
`split_candidate` counts the prefix sums that stay strictly below
`max_seq_length - 2`, and restarts the scan; when a scan finds no violation
the `while` loop exits.  Scanning a segment evaluates
`np.cumsum([...])[-1]`, which raises `IndexError` when the segment holds no
words — the `crash` outcome below.  The unbounded `while` is embedded with
fuel; `timeout` marks exhausted fuel and never occurs for sufficient fuel. -/

/-- Running prefix sums: `np.cumsum`, starting from `acc`. -/
def cumsumFrom (acc : Nat) : List Nat → List Nat
  | [] => []
  | w :: ws => (acc + w) :: cumsumFrom (acc + w) ws

/-- `np.cumsum` of a list of sub-token counts. -/
def cumsum (ws : List Nat) : List Nat :=
  cumsumFrom 0 ws

/-- The per-word sub-token counts of the segment `[s, b)`:
`[len(tokens) for tokens in text_token_ids[sent_start:bound]]` (only the
lengths of the token lists matter, so `lens` holds them directly). -/
def segmentLens (lens : List Nat) (s b : Nat) : List Nat :=
  (lens.drop s).take (b - s)

/-- `(sentence_cumlength + 2 < self.max_seq_length).sum()`: how many prefix
sums stay strictly below the limit. -/
def splitCandidate (max_seq_length : Nat) (ws : List Nat) : Nat :=
  ((cumsum ws).filter fun c => decide (c + 2 < max_seq_length)).length

/-- Outcome of one `for` scan over `bounds`: no segment violates the limit
(`ok`), a segment was empty and `np.cumsum([])[-1]` raised (`crash`), or a
boundary was inserted and the `while` loop restarts on `next`. -/
inductive ScanOut where
  | ok : ScanOut
  | crash : ScanOut
  | next (newBounds : List Nat) : ScanOut
deriving DecidableEq

/-- One `for i, bound in enumerate(bounds)` scan, with `prev` the running
`sent_start` (`bounds[i-1] if i else 0`).  On a violation the new boundary is
inserted immediately before the violating bound, exactly as
`bounds.insert(i, sent_start + split_candidate)` does. -/
def scanBounds (max_seq_length : Nat) (lens : List Nat) (prev : Nat) :
    List Nat → ScanOut
  | [] => .ok
  | b :: rest =>
    if (segmentLens lens prev b).length = 0 then .crash
    else if (cumsum (segmentLens lens prev b)).getLastD 0 + 2 > max_seq_length then
      .next ((prev + splitCandidate max_seq_length (segmentLens lens prev b)) :: b :: rest)
    else
      match scanBounds max_seq_length lens b rest with
      | .ok => .ok
      | .crash => .crash
      | .next nb => .next (b :: nb)

/-- Outcome of `_add_extra_sentence_boundaries`: the returned boundary list,
an `IndexError` crash, or exhausted fuel. -/
inductive RunResult where
  | timeout : RunResult
  | crash : RunResult
  | ret (bounds : List Nat) : RunResult
deriving DecidableEq

/-- The `while might_need_split` loop of `_add_extra_sentence_boundaries`,
with explicit fuel. -/
def add_extra_sentence_boundaries (max_seq_length : Nat) (lens : List Nat) :
    Nat → List Nat → RunResult
  | 0, _ => .timeout
  | fuel + 1, bounds =>
    match scanBounds max_seq_length lens 0 bounds with
    | .ok => .ret bounds
    | .crash => .crash
    | .next nb => add_extra_sentence_boundaries max_seq_length lens fuel nb

/-- A crash outcome is stable under extra fuel: the loop is deterministic and
`crash` ends it. -/
theorem add_extra_sentence_boundaries_crash_mono (max_seq_length : Nat) (lens : List Nat)
    (fuel k : Nat) (bounds : List Nat)
    (h : add_extra_sentence_boundaries max_seq_length lens fuel bounds = .crash) :
    add_extra_sentence_boundaries max_seq_length lens (fuel + k) bounds = .crash := by
  induction fuel generalizing bounds k with
  | zero => simp [add_extra_sentence_boundaries] at h
  | succ fuel ih =>
    rw [add_extra_sentence_boundaries] at h
    rw [Nat.succ_add, add_extra_sentence_boundaries]
    cases hscan : scanBounds max_seq_length lens 0 bounds with
    | ok => rw [hscan] at h; exact absurd h (by simp)
    | crash => simp
    | next nb => rw [hscan] at h; exact ih k nb h

/-- C3 counterexample: on the spec's own concrete scenario — per-word
sub-token counts `[1, 1, 5, 1]`, `max_seq_length = 5`, initial bounds `[4]` —
the function does not return the segments `[0,2)` and `[2,4)`: the word of 5
sub-tokens can never fit under the limit, `split_candidate` degenerates to 0,
a duplicate boundary is inserted, and the next scan crashes with `IndexError`
on the empty segment (`np.cumsum([])[-1]`). -/
theorem add_extra_sentence_boundaries_c3_cex :
    add_extra_sentence_boundaries 5 [1, 1, 5, 1] 100 [4] = RunResult.crash ∧
      RunResult.crash ≠ RunResult.ret [2, 4] := by
  constructor
  · have h3 : add_extra_sentence_boundaries 5 [1, 1, 5, 1] 3 [4] = RunResult.crash := by
      decide
    exact add_extra_sentence_boundaries_crash_mono 5 [1, 1, 5, 1] 3 97 [4] h3
  · decide

/-- C4 counterexample: the fixed-point iteration does not terminate normally
for every input: with counts `[3, 3]` and `max_seq_length = 5` the violating
segment's `split_candidate` is 0 (3 + 2 is not strictly below 5), the
inserted boundary equals `sent_start`, and the following scan crashes on the
empty segment it created instead of exiting the loop. -/
theorem add_extra_sentence_boundaries_c4_cex :
    add_extra_sentence_boundaries 5 [3, 3] 100 [2] = RunResult.crash ∧
      ¬ ∃ bs, RunResult.crash = RunResult.ret bs := by
  constructor
  · have h2 : add_extra_sentence_boundaries 5 [3, 3] 2 [2] = RunResult.crash := by
      decide
    exact add_extra_sentence_boundaries_crash_mono 5 [3, 3] 2 98 [2] h2
  · rintro ⟨bs, h⟩
    exact RunResult.noConfusion h

/-- `cumsumFrom` ends at the running total. -/
theorem cumsumFrom_getLastD (ws : List Nat) : ∀ acc : Nat,
    (cumsumFrom acc ws).getLastD acc = acc + ws.sum := by
  induction ws with
  | nil => intro acc; simp [cumsumFrom]
  | cons w ws ih =>
    intro acc
    rw [cumsumFrom, List.getLastD_cons, ih (acc + w), List.sum_cons]
    omega

/-- `cumsumFrom` preserves length. -/
theorem cumsumFrom_length (ws : List Nat) : ∀ acc : Nat,
    (cumsumFrom acc ws).length = ws.length := by
  induction ws with
  | nil => intro acc; rfl
  | cons w ws ih => intro acc; rw [cumsumFrom, List.length_cons, ih, List.length_cons]

/-- For a non-empty list, `np.cumsum(...)[-1]` is the total. -/
theorem cumsum_getLastD_of_ne_nil (ws : List Nat) (h : ws ≠ []) :
    (cumsum ws).getLastD 0 = ws.sum := by
  obtain ⟨w, ws', rfl⟩ := List.exists_cons_of_ne_nil h
  rw [cumsum, cumsumFrom, List.getLastD_cons, cumsumFrom_getLastD, List.sum_cons]
  omega

/-- The last element with default is a member of any non-empty list. -/
theorem getLastD_mem : ∀ (l : List Nat) (d : Nat), l ≠ [] → l.getLastD d ∈ l
  | [], _, h => absurd rfl h
  | [x], d, _ => by simp
  | x :: y :: t, _, _ => by
    rw [List.getLastD_cons]
    exact List.mem_cons_of_mem x (getLastD_mem (y :: t) x (by simp))

/-- The total is among the prefix sums of a non-empty list. -/
theorem sum_mem_cumsum (ws : List Nat) (h : ws ≠ []) : ws.sum ∈ cumsum ws := by
  have hne : cumsum ws ≠ [] := by
    intro hc
    apply h
    have := cumsumFrom_length ws 0
    rw [cumsum] at hc
    rw [hc] at this
    exact List.length_eq_zero.1 this.symm
  rw [← cumsum_getLastD_of_ne_nil ws h]
  exact getLastD_mem _ 0 hne

/-- Length of a segment's word list. -/
theorem segmentLens_length (lens : List Nat) (prev b : Nat) (hb : b ≤ lens.length) :
    (segmentLens lens prev b).length = b - prev := by
  rw [segmentLens, List.length_take, List.length_drop]
  omega

/-- Every word count of a segment is a word count of the sentence. -/
theorem segmentLens_subset (lens : List Nat) (prev b : Nat) :
    segmentLens lens prev b ⊆ lens :=
  ((List.take_sublist _ _).trans (List.drop_sublist _ _)).subset

/-- When every word fits under the limit and the segment is non-empty but too
long, `split_candidate` lands strictly inside the segment: at least one word
is cut off on each side. -/
theorem splitCandidate_bounds (max_seq_length : Nat) (ws : List Nat)
    (hne : ws ≠ []) (hsub : ∀ w ∈ ws, w + 2 < max_seq_length)
    (hviol : max_seq_length < ws.sum + 2) :
    1 ≤ splitCandidate max_seq_length ws ∧ splitCandidate max_seq_length ws < ws.length := by
  constructor
  · obtain ⟨w, ws', rfl⟩ := List.exists_cons_of_ne_nil hne
    have hw : w + 2 < max_seq_length := hsub w (List.mem_cons_self w ws')
    rw [splitCandidate, cumsum, cumsumFrom, List.filter_cons]
    split
    · rw [List.length_cons]
      omega
    · next hc =>
      simp only [decide_eq_true_eq] at hc
      omega
  · have : (List.filter (fun c => decide (c + 2 < max_seq_length)) (cumsum ws)).length
        < (cumsum ws).length := by
      rw [List.length_filter_lt_length_iff_exists]
      exact ⟨ws.sum, sum_mem_cumsum ws hne, by simpa using by omega⟩
    rw [splitCandidate]
    calc _ < (cumsum ws).length := this
    _ = ws.length := cumsumFrom_length ws 0

/-- One scan over well-formed bounds never crashes, and an insertion keeps the
bounds strictly increasing above `prev`, within the sentence, and one longer. -/
theorem scanBounds_invariant (max_seq_length : Nat) (lens : List Nat)
    (hw : ∀ w ∈ lens, w + 2 < max_seq_length) :
    ∀ (bs : List Nat) (prev : Nat), List.Chain (· < ·) prev bs →
      (∀ b ∈ bs, b ≤ lens.length) →
      scanBounds max_seq_length lens prev bs ≠ .crash ∧
        ∀ nb, scanBounds max_seq_length lens prev bs = .next nb →
          List.Chain (· < ·) prev nb ∧ (∀ b ∈ nb, b ≤ lens.length) ∧
            nb.length = bs.length + 1 := by
  intro bs
  induction bs with
  | nil =>
    intro prev _ _
    exact ⟨by simp [scanBounds], fun nb h => by simp [scanBounds] at h⟩
  | cons b rest ih =>
    intro prev hchain hmem
    rw [List.chain_cons] at hchain
    obtain ⟨hpb, hrest⟩ := hchain
    have hbL : b ≤ lens.length := hmem b (List.mem_cons_self b rest)
    have hrestL : ∀ x ∈ rest, x ≤ lens.length := fun x hx =>
      hmem x (List.mem_cons_of_mem b hx)
    have hlen : (segmentLens lens prev b).length = b - prev := segmentLens_length lens prev b hbL
    have hne0 : ¬ (segmentLens lens prev b).length = 0 := by omega
    have hnil : segmentLens lens prev b ≠ [] := by
      intro hc; exact hne0 (by rw [hc]; rfl)
    by_cases hviol : (cumsum (segmentLens lens prev b)).getLastD 0 + 2 > max_seq_length
    · have hrun : scanBounds max_seq_length lens prev (b :: rest)
          = .next ((prev + splitCandidate max_seq_length (segmentLens lens prev b)) :: b :: rest) := by
        rw [scanBounds, if_neg hne0, if_pos hviol]
      have hsum : max_seq_length < (segmentLens lens prev b).sum + 2 := by
        rwa [cumsum_getLastD_of_ne_nil _ hnil] at hviol
      obtain ⟨hk1, hk2⟩ := splitCandidate_bounds max_seq_length (segmentLens lens prev b) hnil
        (fun w hwmem => hw w (segmentLens_subset lens prev b hwmem)) hsum
      refine ⟨by rw [hrun]; simp, fun nb hnb => ?_⟩
      rw [hrun] at hnb
      obtain rfl : (prev + splitCandidate max_seq_length (segmentLens lens prev b)) :: b :: rest
          = nb := by injection hnb
      refine ⟨?_, ?_, by simp⟩
      · rw [List.chain_cons, List.chain_cons]
        exact ⟨by omega, by omega, hrest⟩
      · intro x hx
        rcases List.mem_cons.1 hx with rfl | hx'
        · omega
        · exact hmem x hx'
    · obtain ⟨ihcrash, ihnext⟩ := ih b hrest hrestL
      have hstep : scanBounds max_seq_length lens prev (b :: rest)
          = match scanBounds max_seq_length lens b rest with
            | .ok => .ok
            | .crash => .crash
            | .next nb => .next (b :: nb) := by
        rw [scanBounds, if_neg hne0, if_neg hviol]
      cases hinner : scanBounds max_seq_length lens b rest with
      | ok =>
        rw [hinner] at hstep
        exact ⟨by rw [hstep]; simp, fun nb hnb => by rw [hstep] at hnb; cases hnb⟩
      | crash => exact absurd hinner ihcrash
      | next nb' =>
        rw [hinner] at hstep
        refine ⟨by rw [hstep]; simp, fun nb hnb => ?_⟩
        rw [hstep] at hnb
        obtain rfl : b :: nb' = nb := by injection hnb
        obtain ⟨hc, hm, hl⟩ := ihnext nb' hinner
        refine ⟨List.chain_cons.2 ⟨hpb, hc⟩, ?_, by simp [hl]⟩
        intro x hx
        rcases List.mem_cons.1 hx with rfl | hx'
        · exact hbL
        · exact hm x hx'

/-- A scan that reports `ok` certifies every segment: its total sub-token
count plus the two sentinel slots stays within `max_seq_length`. -/
def boundsOK (max_seq_length : Nat) (lens : List Nat) : Nat → List Nat → Prop
  | _, [] => True
  | prev, b :: rest =>
    (segmentLens lens prev b).sum + 2 ≤ max_seq_length ∧ boundsOK max_seq_length lens b rest

/-- `scanBounds` returns `ok` only when every segment fits. -/
theorem scanBounds_ok_boundsOK (max_seq_length : Nat) (lens : List Nat) :
    ∀ (bs : List Nat) (prev : Nat), scanBounds max_seq_length lens prev bs = .ok →
      boundsOK max_seq_length lens prev bs := by
  intro bs
  induction bs with
  | nil => intro prev _; trivial
  | cons b rest ih =>
    intro prev h
    rw [scanBounds] at h
    by_cases h0 : (segmentLens lens prev b).length = 0
    · rw [if_pos h0] at h; cases h
    · rw [if_neg h0] at h
      by_cases hviol : (cumsum (segmentLens lens prev b)).getLastD 0 + 2 > max_seq_length
      · rw [if_pos hviol] at h; cases h
      · rw [if_neg hviol] at h
        have hnil : segmentLens lens prev b ≠ [] := by
          intro hc; exact h0 (by rw [hc]; rfl)
        rw [cumsum_getLastD_of_ne_nil _ hnil] at hviol
        cases hinner : scanBounds max_seq_length lens b rest with
        | ok => exact ⟨by omega, ih b hinner⟩
        | crash => rw [hinner] at h; cases h
        | next nb => rw [hinner] at h; cases h

/-- A strictly increasing list of bounds capped by `L` has at most `L - p`
entries. -/
theorem chain_lt_length_le (L : Nat) : ∀ (bs : List Nat) (p : Nat),
    List.Chain (· < ·) p bs → (∀ b ∈ bs, b ≤ L) → p + bs.length ≤ L ∨ bs = [] := by
  intro bs
  induction bs with
  | nil => intro p _ _; exact Or.inr rfl
  | cons b rest ih =>
    intro p hchain hmem
    rw [List.chain_cons] at hchain
    rcases ih b hchain.2 (fun x hx => hmem x (List.mem_cons_of_mem b hx)) with h | h
    · left
      rw [List.length_cons]
      omega
    · left
      subst h
      have := hmem b (List.mem_cons_self b [])
      rw [List.length_cons]
      simp only [List.length_nil]
      omega

/-- With well-formed input bounds, enough fuel and every word under the limit,
the loop reaches a clean fixed point: a returned boundary list that a fresh
scan accepts. -/
theorem add_extra_sentence_boundaries_fixed_point (max_seq_length : Nat) (lens : List Nat)
    (hw : ∀ w ∈ lens, w + 2 < max_seq_length) :
    ∀ (fuel : Nat) (bs : List Nat), List.Chain (· < ·) 0 bs →
      (∀ b ∈ bs, b ≤ lens.length) → lens.length + 1 ≤ fuel + bs.length →
      ∃ out, add_extra_sentence_boundaries max_seq_length lens fuel bs = .ret out ∧
        List.Chain (· < ·) 0 out ∧ (∀ b ∈ out, b ≤ lens.length) ∧
          scanBounds max_seq_length lens 0 out = .ok := by
  intro fuel
  induction fuel with
  | zero =>
    intro bs hchain hmem hfuel
    rcases chain_lt_length_le lens.length bs 0 hchain hmem with h | h
    · omega
    · subst h
      simp only [List.length_nil] at hfuel
      omega
  | succ fuel ih =>
    intro bs hchain hmem hfuel
    obtain ⟨hcrash, hnext⟩ := scanBounds_invariant max_seq_length lens hw bs 0 hchain hmem
    cases hscan : scanBounds max_seq_length lens 0 bs with
    | ok =>
      refine ⟨bs, ?_, hchain, hmem, hscan⟩
      rw [add_extra_sentence_boundaries, hscan]
    | crash => exact absurd hscan hcrash
    | next nb =>
      obtain ⟨hc, hm, hl⟩ := hnext nb hscan
      obtain ⟨out, hout, h1, h2, h3⟩ := ih nb hc hm (by omega)
      refine ⟨out, ?_, h1, h2, h3⟩
      rw [add_extra_sentence_boundaries, hscan]
      exact hout

/-- C3 (amended): provided every word's sub-token count leaves room for the
two sentinels (`count + 2 < max_seq_length`), the initial bounds are strictly
increasing, positive and within the sentence, and the fuel covers the at most
`lens.length` possible insertions, the returned boundary list makes every
consecutive pair of boundaries span a total sub-token count of at most
`max_seq_length - 2`; the spec's concrete scenario holds with
`max_seq_length = 9` (not 5, where the 5-sub-token word cannot fit and the
code crashes): counts `[1, 1, 5, 1]` and bounds `[4]` yield `[2, 4]`, the
segments `[0,2)` and `[2,4)`. -/
theorem add_extra_sentence_boundaries_c3 (max_seq_length : Nat) (lens bounds : List Nat)
    (fuel : Nat)
    (hw : ∀ w ∈ lens, w + 2 < max_seq_length)
    (hchain : List.Chain (· < ·) 0 bounds)
    (hle : ∀ b ∈ bounds, b ≤ lens.length)
    (hfuel : lens.length + 1 ≤ fuel + bounds.length) :
    (∃ out, add_extra_sentence_boundaries max_seq_length lens fuel bounds = .ret out ∧
        boundsOK max_seq_length lens 0 out) ∧
      add_extra_sentence_boundaries 9 [1, 1, 5, 1] 10 [4] = .ret [2, 4] := by
  constructor
  · obtain ⟨out, hout, _, _, hok⟩ :=
      add_extra_sentence_boundaries_fixed_point max_seq_length lens hw fuel bounds
        hchain hle hfuel
    exact ⟨out, hout, scanBounds_ok_boundsOK max_seq_length lens out 0 hok⟩
  · decide

/-- C3 witness: the amended statement at the concrete scenario itself,
`max_seq_length = 9`, counts `[1, 1, 5, 1]`, bounds `[4]`, fuel 10. -/
theorem add_extra_sentence_boundaries_c3_witness :
    (∃ out, add_extra_sentence_boundaries 9 [1, 1, 5, 1] 10 [4] = .ret out ∧
        boundsOK 9 [1, 1, 5, 1] 0 out) ∧
      add_extra_sentence_boundaries 9 [1, 1, 5, 1] 10 [4] = .ret [2, 4] :=
  add_extra_sentence_boundaries_c3 9 [1, 1, 5, 1] [4] 10
    (by decide) (List.Chain.cons (by omega) List.Chain.nil) (by decide) (by decide)

/-- C4 (amended): the iteration terminates with a returned boundary list — no
crash, no exhausted fuel — provided every word's sub-token count plus the two
sentinels fits in `max_seq_length`, the initial bounds are strictly
increasing, positive and within the sentence, and the fuel covers the at most
`lens.length` possible insertions (each insertion strictly splits one
oversized segment, and bounds are strictly increasing naturals capped by the
word count, so only finitely many insertions can happen). -/
theorem add_extra_sentence_boundaries_c4 (max_seq_length : Nat) (lens bounds : List Nat)
    (fuel : Nat)
    (hw : ∀ w ∈ lens, w + 2 < max_seq_length)
    (hchain : List.Chain (· < ·) 0 bounds)
    (hle : ∀ b ∈ bounds, b ≤ lens.length)
    (hfuel : lens.length + 1 ≤ fuel + bounds.length) :
    ∃ out, add_extra_sentence_boundaries max_seq_length lens fuel bounds
      = RunResult.ret out := by
  obtain ⟨out, hout, -, -, -⟩ :=
    add_extra_sentence_boundaries_fixed_point max_seq_length lens hw fuel bounds
      hchain hle hfuel
  exact ⟨out, hout⟩

/-- C4 witness: counts `[2, 2]`, `max_seq_length = 6`, bounds `[2]`, fuel 5. -/
theorem add_extra_sentence_boundaries_c4_witness :
    ∃ out, add_extra_sentence_boundaries 6 [2, 2] 5 [2] = RunResult.ret out :=
  add_extra_sentence_boundaries_c4 6 [2, 2] [2] 5 (by decide)
    (List.Chain.cons (by omega) List.Chain.nil) (by decide) (by decide)

/-! ### `_segment_entities` (src/daluke/ner/data.py lines 170-197)

Per-word tags are the null label "O" or `"B-TYPE"` / `"I-TYPE"`; the string
`ann.split("-")` pair `(tag, typ_)` is captured by the `Tag` constructors.
The loop state is the accumulated `spans` dict (an insertion-ordered
association list), `start` and `ent_type`; the three `assert`s map to
`.error`.  The lookahead `annotation[i+1]` is the head of the unprocessed
suffix, the lookbehind `annotation[i-1]` the previously processed tag, and
`not i` / `i+1 == len(annotation)` are carried explicitly. -/

/-- An IOB tag: `"O"`, `"B-t"` or `"I-t"`. -/
inductive Tag where
  | O : Tag
  | B (t : String) : Tag
  | I (t : String) : Tag
deriving DecidableEq

/-- The `_segment_entities` loop state: found spans, `start`, `ent_type`. -/
structure SegState where
  spans : List ((Nat × Nat) × String)
  start : Option Nat
  entType : Option String
deriving DecidableEq

/-- The close condition at a `B`/`I` tag of type `typ`:
`i+1 == len(annotation) or annotation[i+1] == null or next is "B-..." or the
next type differs`. -/
def closesHere (typ : String) (rest : List Tag) : Bool :=
  match rest with
  | [] => true
  | Tag.O :: _ => true
  | Tag.B _ :: _ => true
  | Tag.I t :: _ => t != typ

/-- The open condition at a `B`/`I` tag of type `typ`:
`tag == "B" or not i or annotation[i-1] == null or the previous type differs`. -/
def opensHere (isB : Bool) (i : Nat) (prev : Option Tag) (typ : String) : Bool :=
  isB || i == 0 || prev == some Tag.O ||
    (match prev with
     | some (Tag.B t) => t != typ
     | some (Tag.I t) => t != typ
     | _ => false)

/-- The `for i, ann in enumerate(annotation)` loop of `_segment_entities`. -/
def segGo : List Tag → Option Tag → Nat → SegState → Except Unit SegState
  | [], _, _, st => .ok st
  | Tag.O :: rest, _, i, st =>
    if st.start.isSome then .error () else segGo rest (some Tag.O) (i + 1) st
  | Tag.B typ :: rest, prev, i, st =>
    if closesHere typ rest then
      if st.entType = none ∨ st.entType = some typ then
        segGo rest (some (Tag.B typ)) (i + 1)
          ⟨st.spans ++ [((st.start.getD i, i + 1), typ)], none, none⟩
      else .error ()
    else if opensHere true i prev typ then
      if st.start = none then
        segGo rest (some (Tag.B typ)) (i + 1) ⟨st.spans, some i, some typ⟩
      else .error ()
    else segGo rest (some (Tag.B typ)) (i + 1) st
  | Tag.I typ :: rest, prev, i, st =>
    if closesHere typ rest then
      if st.entType = none ∨ st.entType = some typ then
        segGo rest (some (Tag.I typ)) (i + 1)
          ⟨st.spans ++ [((st.start.getD i, i + 1), typ)], none, none⟩
      else .error ()
    else if opensHere false i prev typ then
      if st.start = none then
        segGo rest (some (Tag.I typ)) (i + 1) ⟨st.spans, some i, some typ⟩
      else .error ()
    else segGo rest (some (Tag.I typ)) (i + 1) st

/-- `_segment_entities`: decode an IOB tag list into the span-to-type map. -/
def segment_entities (anns : List Tag) : Except Unit (List ((Nat × Nat) × String)) :=
  (segGo anns none 0 ⟨[], none, none⟩).map SegState.spans

/-- Modelled from the spec: the IOB2 encoder of the round-trip property (spec
§8, "encoding a set of non-overlapping spans with types into IOB tags") is not
code of the repository.  For a start-sorted span list it writes `B-TYPE` at
each span start, `I-TYPE` at continuations, `O` elsewhere, over positions
`pos, ..., n-1`. -/
def encodeIOB (n : Nat) : Nat → List ((Nat × Nat) × String) → List Tag
  | pos, [] => List.replicate (n - pos) Tag.O
  | pos, ((s, e), t) :: rest =>
    List.replicate (s - pos) Tag.O ++
      (Tag.B t :: List.replicate (e - s - 1) (Tag.I t)) ++ encodeIOB n e rest

/-- Well-formedness of a start-sorted span list over `[pos, n)`: spans are
non-empty, pairwise disjoint, in order, and end within the text. -/
def SpansWF (n : Nat) : Nat → List ((Nat × Nat) × String) → Prop
  | pos, [] => pos ≤ n
  | pos, ((s, e), _) :: rest => pos ≤ s ∧ s < e ∧ SpansWF n e rest

/-- Whatever the type `t`, an encoded tail can close a span: it never starts
with an `I` tag (it is empty, or starts with `O` padding or a `B`). -/
theorem closesHere_encodeIOB (t : String) (n : Nat) (pos : Nat)
    (spans : List ((Nat × Nat) × String)) :
    closesHere t (encodeIOB n pos spans) = true := by
  match spans with
  | [] =>
    rw [encodeIOB]
    cases h : n - pos with
    | zero => rfl
    | succ k => rw [List.replicate_succ]; rfl
  | ((s, e), t') :: rest =>
    rw [encodeIOB]
    cases h : s - pos with
    | zero => rw [List.replicate_zero, List.nil_append]; rfl
    | succ k => rw [List.replicate_succ]; rfl

/-- Scanning a run of `O`s with no open span just advances the position. -/
theorem segGo_replicate_O (k : Nat) : ∀ (i : Nat) (prev : Option Tag)
    (sp : List ((Nat × Nat) × String)) (restTags : List Tag),
    ∃ prev', segGo (List.replicate k Tag.O ++ restTags) prev i ⟨sp, none, none⟩
      = segGo restTags prev' (i + k) ⟨sp, none, none⟩ := by
  induction k with
  | zero =>
    intro i prev sp restTags
    exact ⟨prev, by rw [List.replicate_zero, List.nil_append, Nat.add_zero]⟩
  | succ k ih =>
    intro i prev sp restTags
    rw [List.replicate_succ, List.cons_append]
    obtain ⟨p', hp⟩ := ih (i + 1) (some Tag.O) sp restTags
    refine ⟨p', ?_⟩
    have harith : i + 1 + k = i + (k + 1) := by omega
    rw [harith] at hp
    simpa [segGo] using hp

/-- Scanning a non-empty run of `I t`s with span `(s, ·)` open and a same-type
predecessor: the run's last tag closes the span at its own position. -/
theorem segGo_I_run (t : String) (restTags : List Tag)
    (hclose : closesHere t restTags = true) :
    ∀ (m i : Nat) (prev : Option Tag) (sp : List ((Nat × Nat) × String)) (s : Nat),
      1 ≤ i → (prev = some (Tag.B t) ∨ prev = some (Tag.I t)) →
      segGo (List.replicate (m + 1) (Tag.I t) ++ restTags) prev i ⟨sp, some s, some t⟩
        = segGo restTags (some (Tag.I t)) (i + (m + 1))
            ⟨sp ++ [((s, i + m + 1), t)], none, none⟩ := by
  intro m
  induction m with
  | zero =>
    intro i prev sp s hi hprev
    rw [List.replicate_succ, List.replicate_zero, List.cons_append, List.nil_append]
    simp [segGo, hclose]
  | succ m ih =>
    intro i prev sp s hi hprev
    rw [List.replicate_succ, List.cons_append]
    have hnoclose : closesHere t (List.replicate (m + 1) (Tag.I t) ++ restTags) = false := by
      rw [List.replicate_succ, List.cons_append, closesHere]
      simp
    have hi0 : (i == 0) = false := by
      simp only [beq_eq_false_iff_ne]
      omega
    have hnoopen : opensHere false i prev t = false := by
      rcases hprev with rfl | rfl <;> simp [opensHere, hi0, beq_iff_eq]
    have hrec := ih (i + 1) (some (Tag.I t)) sp s (by omega) (Or.inr rfl)
    have harith1 : i + 1 + (m + 1) = i + (m + 1 + 1) := by omega
    have harith2 : i + 1 + m + 1 = i + (m + 1) + 1 := by omega
    rw [harith1, harith2] at hrec
    simpa [segGo, hnoclose, hnoopen] using hrec

/-- Decoding an encoded well-formed span list appends exactly those spans,
leaving no span open. -/
theorem segGo_encodeIOB (n : Nat) : ∀ (spans : List ((Nat × Nat) × String)) (pos : Nat)
    (prev : Option Tag) (sp : List ((Nat × Nat) × String)),
    SpansWF n pos spans →
    segGo (encodeIOB n pos spans) prev pos ⟨sp, none, none⟩
      = .ok ⟨sp ++ spans, none, none⟩ := by
  intro spans
  induction spans with
  | nil =>
    intro pos prev sp hwf
    rw [encodeIOB]
    obtain ⟨prev', hp⟩ := segGo_replicate_O (n - pos) pos prev sp []
    rw [List.append_nil] at hp
    rw [hp, List.append_nil]
    rfl
  | cons hd rest ih =>
    obtain ⟨⟨s, e⟩, t⟩ := hd
    intro pos prev sp hwf
    obtain ⟨hps, hse, hwfrest⟩ : pos ≤ s ∧ s < e ∧ SpansWF n e rest := hwf
    rw [encodeIOB]
    obtain ⟨prev', hp⟩ := segGo_replicate_O (s - pos) pos prev sp
      (Tag.B t :: (List.replicate (e - s - 1) (Tag.I t) ++ encodeIOB n e rest))
    have hpos : pos + (s - pos) = s := by omega
    rw [hpos] at hp
    simp only [List.cons_append, List.append_assoc] at hp ⊢
    rw [hp]
    have hcl := closesHere_encodeIOB t n e rest
    rw [List.append_cons sp ((s, e), t) rest]
    have hih := ih e (some (Tag.B t)) (sp ++ [((s, e), t)]) hwfrest
    have hihI := ih e (some (Tag.I t)) (sp ++ [((s, e), t)]) hwfrest
    by_cases he1 : e = s + 1
    · subst he1
      rw [show s + 1 - s - 1 = 0 from by omega, List.replicate_zero, List.nil_append]
      simpa [segGo, hcl] using hih
    · obtain ⟨m, hm⟩ : ∃ m, e - s - 1 = m + 1 := ⟨e - s - 2, by omega⟩
      rw [hm]
      have hrun := segGo_I_run t (encodeIOB n e rest) hcl m (s + 1) (some (Tag.B t)) sp s
        (by omega) (Or.inl rfl)
      have harith1 : s + 1 + (m + 1) = e := by omega
      have harith2 : s + 1 + m + 1 = e := by omega
      rw [harith1, harith2] at hrun
      rw [← hihI, ← hrun]
      have hnoclose : closesHere t
          (List.replicate (m + 1) (Tag.I t) ++ encodeIOB n e rest) = false := by
        rw [List.replicate_succ, List.cons_append, closesHere]
        simp
      simp [segGo, hnoclose, opensHere]

/-- C5: encoding a well-formed (sorted, non-overlapping, typed) span list into
IOB2 tags and decoding with `_segment_entities` returns exactly the original
span-to-type association list; and on `["O", "B-PER", "I-PER", "O"]` the
decoder yields exactly `{(1, 3): "PER"}`. -/
theorem segment_entities_roundtrip (n : Nat) (spans : List ((Nat × Nat) × String))
    (hwf : SpansWF n 0 spans) :
    segment_entities (encodeIOB n 0 spans) = .ok spans ∧
      segment_entities [Tag.O, Tag.B "PER", Tag.I "PER", Tag.O]
        = .ok [((1, 3), "PER")] := by
  constructor
  · rw [segment_entities, segGo_encodeIOB n spans 0 none [] hwf]
    rw [List.nil_append]
    rfl
  · rfl

/-- C5 witness: the span set `{(1, 3): "PER"}` over 4 words encodes to
`["O", "B-PER", "I-PER", "O"]` and decodes back to itself. -/
theorem segment_entities_roundtrip_witness :
    segment_entities (encodeIOB 4 0 [((1, 3), "PER")]) = .ok [((1, 3), "PER")] ∧
      segment_entities [Tag.O, Tag.B "PER", Tag.I "PER", Tag.O]
        = .ok [((1, 3), "PER")] :=
  segment_entities_roundtrip 4 [((1, 3), "PER")] (by simp only [SpansWF]; omega)

/-! ### `top_k_accuracy` (src/daluke/analysis/pretrain.py lines 52-68 and
src/daluke/pretrain/analysis.py lines 35-51, identical bodies)

Scores are floats whose only role here is ordering and the `-inf` sentinel, so
a score is `Option Int` with `none` standing for `-inf`.  `torch.argmax(dim=1)`
returns, per row, the first index attaining the maximum.  The in-place
`scores[idcs, argmax] = -float("inf")` becomes explicit state passing: the
model returns the score matrix as it stands after the call, and "mutates its
argument" becomes "the returned matrix differs from the one passed in".
`idcs = torch.arange(len(labels))` assumes one label per row, so the update
maps over all rows.  `k_scores / len(labels)` is rational division (NumPy
would produce `nan` for zero labels; the claims do not touch that value). -/

/-- Strict order on scores with `none` as `-inf`. -/
def negInfLt : Option Int → Option Int → Bool
  | none, none => false
  | none, some _ => true
  | some _, none => false
  | some a, some b => decide (a < b)

/-- One step of the running maximum. -/
def rowMaxStep (m x : Option Int) : Option Int :=
  if negInfLt m x then x else m

/-- The maximum score of a row (`-inf` for an empty row). -/
def rowMax (row : List (Option Int)) : Option Int :=
  row.foldl rowMaxStep none

/-- First index of a value in a row (the row's length when absent). -/
def idxOfOpt (v : Option Int) : List (Option Int) → Nat
  | [] => 0
  | x :: xs => if x = v then 0 else idxOfOpt v xs + 1

/-- `torch.argmax` over one row: the first index attaining the maximum. -/
def argmaxRow (row : List (Option Int)) : Nat :=
  idxOfOpt (rowMax row) row

/-- The `for k in range(largest_k)` loop: `k` is the current iteration, the
second argument the remaining iterations; each pass computes the per-row
argmaxes, adds the hit count to every `k_scores` slot whose `top_k` entry
exceeds `k`, and overwrites each row's argmax entry with `-inf`. -/
def topkGo (labels : List Nat) (topk : List Nat) :
    Nat → Nat → List Nat → List (List (Option Int)) → List Nat × List (List (Option Int))
  | _, 0, kscores, scores => (kscores, scores)
  | k, rem + 1, kscores, scores =>
    let args := scores.map argmaxRow
    let trues := ((labels.zip args).filter fun p => p.1 == p.2).length
    topkGo labels topk (k + 1) rem
      (List.zipWith (fun ki k_ => if k < k_ then ki + trues else ki) kscores topk)
      (scores.map fun row => row.set (argmaxRow row) none)

/-- `top_k_accuracy`: the accuracies and the score matrix as left behind by
the call (`top_k[-1]` on an empty `top_k` raises in Python; `getLastD 0` makes
that case run zero iterations instead, and the claims assume a non-empty
`top_k`). -/
def top_k_accuracy (labels : List Nat) (scores : List (List (Option Int)))
    (topk : List Nat) : List Rat × List (List (Option Int)) :=
  let res := topkGo labels topk 0 (topk.getLastD 0) (List.replicate topk.length 0) scores
  (res.1.map fun c => (c : Rat) / (labels.length : Rat), res.2)

/-- C9 counterexample: a 1×1 score matrix already holding `-inf`, labels `[0]`
and `top_k = [1]`: the single iteration writes `-inf` over the argmax entry,
which already is `-inf`, so the scores tensor the caller observes after the
call equals the value passed in — refuting "the caller's scores tensor differs
from the value passed in" for every input. -/
theorem top_k_accuracy_unchanged_cex :
    (top_k_accuracy [0] [[(none : Option Int)]] [1]).2 = [[(none : Option Int)]] := by
  rfl

theorem negInfLt_irrefl (a : Option Int) : negInfLt a a = false := by
  cases a <;> simp [negInfLt]

/-- `a ≥ b` and `b ≥ c` give `a ≥ c` (each as a refuted strict inequality). -/
theorem negInfLt_trans_ge (a b c : Option Int) (h1 : negInfLt b a = false)
    (h2 : negInfLt c b = false) : negInfLt c a = false := by
  cases a <;> cases b <;> cases c <;> simp_all [negInfLt] <;> omega

/-- `a < b` and `c ≥ b` give `c > a`, refuting `c < a`. -/
theorem negInfLt_ge_of_lt (a b c : Option Int) (hlt : negInfLt a b = true)
    (h : negInfLt c b = false) : negInfLt c a = false := by
  cases a <;> cases b <;> cases c <;> simp_all [negInfLt] <;> omega

/-- The running maximum dominates its seed and every element folded over. -/
theorem foldl_rowMaxStep_ge (row : List (Option Int)) : ∀ acc : Option Int,
    negInfLt (row.foldl rowMaxStep acc) acc = false ∧
      ∀ x ∈ row, negInfLt (row.foldl rowMaxStep acc) x = false := by
  induction row with
  | nil => intro acc; exact ⟨negInfLt_irrefl acc, by simp⟩
  | cons x xs ih =>
    intro acc
    rw [List.foldl_cons]
    obtain ⟨h1, h2⟩ := ih (rowMaxStep acc x)
    by_cases hx : negInfLt acc x = true
    · have hs : rowMaxStep acc x = x := by rw [rowMaxStep, if_pos hx]
      rw [hs] at h1 h2 ⊢
      refine ⟨negInfLt_ge_of_lt acc x _ hx h1, ?_⟩
      intro y hy
      rcases List.mem_cons.1 hy with rfl | hy'
      · exact h1
      · exact h2 y hy'
    · have hx' : negInfLt acc x = false := by
        cases hb : negInfLt acc x
        · rfl
        · exact absurd hb hx
      have hs : rowMaxStep acc x = acc := by rw [rowMaxStep, if_neg (by simp [hx'])]
      rw [hs] at h1 h2 ⊢
      refine ⟨h1, ?_⟩
      intro y hy
      rcases List.mem_cons.1 hy with rfl | hy'
      · exact negInfLt_trans_ge y acc _ hx' h1
      · exact h2 y hy'

/-- The fold's result is the seed or an element of the list. -/
theorem foldl_rowMaxStep_mem_or (row : List (Option Int)) : ∀ acc : Option Int,
    row.foldl rowMaxStep acc = acc ∨ row.foldl rowMaxStep acc ∈ row := by
  induction row with
  | nil => intro acc; exact Or.inl rfl
  | cons x xs ih =>
    intro acc
    rw [List.foldl_cons]
    rcases ih (rowMaxStep acc x) with h | h
    · rw [h, rowMaxStep]
      by_cases hx : negInfLt acc x = true
      · rw [if_pos hx]
        exact Or.inr (List.mem_cons_self x xs)
      · rw [if_neg hx]
        exact Or.inl rfl
    · exact Or.inr (List.mem_cons_of_mem x h)

/-- Overwriting index `a` with `-inf` makes index `a` read `-inf` (also when
`a` is out of range, where the read already defaulted to `-inf`). -/
theorem getD_set_self_none : ∀ (r : List (Option Int)) (a : Nat),
    (r.set a none).getD a none = none
  | [], _ => rfl
  | _ :: _, 0 => rfl
  | _ :: r, a + 1 => getD_set_self_none r a

/-- Overwriting with `-inf` never revives an entry that reads `-inf`. -/
theorem getD_set_none : ∀ (r : List (Option Int)) (a j : Nat),
    r.getD j none = none → (r.set a none).getD j none = none
  | [], _, _, h => h
  | _ :: _, 0, 0, _ => rfl
  | _ :: _, 0, _ + 1, h => h
  | _ :: _, _ + 1, 0, h => h
  | _ :: r, a + 1, j + 1, h => getD_set_none r a j h

/-- Reading entry `(i, j)` of the score matrix, `-inf` out of range. -/
def entryAt (m : List (List (Option Int))) (i j : Nat) : Option Int :=
  (m.getD i []).getD j none

/-- One masking pass never revives an `-inf` entry. -/
theorem entryAt_map_set_none : ∀ (m : List (List (Option Int))) (i j : Nat),
    entryAt m i j = none →
    entryAt (m.map fun row => row.set (argmaxRow row) none) i j = none
  | [], _, _, h => h
  | _ :: _, 0, j, h => getD_set_none _ _ j h
  | _ :: m, i + 1, j, h => entryAt_map_set_none m i j h

/-- The whole loop never revives an `-inf` entry. -/
theorem topkGo_entry_none (labels topk : List Nat) : ∀ (rem k : Nat) (ks : List Nat)
    (m : List (List (Option Int))) (i j : Nat), entryAt m i j = none →
    entryAt (topkGo labels topk k rem ks m).2 i j = none := by
  intro rem
  induction rem with
  | zero => intro k ks m i j h; exact h
  | succ rem ih =>
    intro k ks m i j h
    rw [topkGo]
    exact ih (k + 1) _ _ i j (entryAt_map_set_none m i j h)

/-- After one masking pass, row `i` reads `-inf` at its original argmax. -/
theorem entryAt_map_set_self : ∀ (m : List (List (Option Int))) (i : Nat),
    entryAt (m.map fun row => row.set (argmaxRow row) none) i
      (argmaxRow (m.getD i [])) = none
  | [], _ => rfl
  | _ :: _, 0 => getD_set_self_none _ _
  | _ :: m, i + 1 => entryAt_map_set_self m i

/-- A row holding a finite score has a finite maximum. -/
theorem rowMax_ne_none (row : List (Option Int)) (x : Option Int) (hx : x ∈ row)
    (hxne : x ≠ none) : rowMax row ≠ none := by
  intro hnone
  obtain ⟨v, rfl⟩ : ∃ v, x = some v := by
    cases x
    · exact absurd rfl hxne
    · exact ⟨_, rfl⟩
  have := (foldl_rowMaxStep_ge row none).2 (some v) hx
  rw [← rowMax, hnone] at this
  simp [negInfLt] at this

/-- A present value is read back at its first index. -/
theorem getD_idxOfOpt (v : Option Int) : ∀ (l : List (Option Int)), v ∈ l →
    l.getD (idxOfOpt v l) none = v := by
  intro l
  induction l with
  | nil => intro h; cases h
  | cons x xs ih =>
    intro h
    rw [idxOfOpt]
    by_cases hx : x = v
    · rw [if_pos hx, List.getD_cons_zero]
      exact hx
    · rw [if_neg hx, List.getD_cons_succ]
      exact ih (by rcases List.mem_cons.1 h with rfl | h'
                   · exact absurd rfl hx
                   · exact h')

/-- The entry at the argmax is the row maximum. -/
theorem getD_argmaxRow (row : List (Option Int)) (h : rowMax row ≠ none) :
    row.getD (argmaxRow row) none = rowMax row := by
  have hmem : rowMax row ∈ row := by
    rcases foldl_rowMaxStep_mem_or row none with hc | hc
    · exact absurd hc h
    · exact hc
  rw [argmaxRow]
  exact getD_idxOfOpt (rowMax row) row hmem

/-- C9 (amended): for every labels list, score matrix and non-empty ascending
`top_k` whose largest entry is at least 1, if some score is finite (not
`-inf`) then the matrix `top_k_accuracy` leaves behind differs from the one
passed in: the first iteration overwrites each row's argmax — a finite entry
in the witness row — with `-inf`, and later iterations never restore it.  (On
a matrix that is entirely `-inf`, or with `top_k = [0]`, the call leaves the
scores unchanged, which is what the counterexample records.) -/
theorem top_k_accuracy_mutates (labels : List Nat) (scores : List (List (Option Int)))
    (topk : List Nat) (_hne : topk ≠ []) (_hsorted : List.Sorted (· ≤ ·) topk)
    (hk : 1 ≤ topk.getLastD 0)
    (hrow : ∃ row ∈ scores, ∃ x ∈ row, x ≠ none) :
    (top_k_accuracy labels scores topk).2 ≠ scores := by
  obtain ⟨row, hrowmem, x, hxmem, hxne⟩ := hrow
  obtain ⟨ri, hri⟩ := List.get_of_mem hrowmem
  have hmaxne : rowMax row ≠ none := rowMax_ne_none row x hxmem hxne
  obtain ⟨w, hw⟩ : ∃ w, rowMax row = some w := by
    cases hc : rowMax row
    · exact absurd hc hmaxne
    · exact ⟨_, rfl⟩
  have hrowD : scores.getD ri.1 [] = row := by
    rw [List.getD_eq_getElem?_getD, List.getElem?_eq_getElem ri.2]
    simpa using congrArg some hri
  have hinit : entryAt scores ri.1 (argmaxRow row) = some w := by
    rw [entryAt, hrowD, getD_argmaxRow row hmaxne, hw]
  obtain ⟨rem, hrem⟩ : ∃ rem, topk.getLastD 0 = rem + 1 :=
    ⟨topk.getLastD 0 - 1, by omega⟩
  intro heq
  have hfinal : entryAt (top_k_accuracy labels scores topk).2 ri.1 (argmaxRow row)
      = none := by
    rw [top_k_accuracy]
    show entryAt (topkGo labels topk 0 (topk.getLastD 0)
      (List.replicate topk.length 0) scores).2 ri.1 (argmaxRow row) = none
    rw [hrem, topkGo]
    refine topkGo_entry_none labels topk rem 1 _ _ ri.1 (argmaxRow row) ?_
    have := entryAt_map_set_self scores ri.1
    rwa [hrowD] at this
  rw [heq, hinit] at hfinal
  cases hfinal

/-- C9 witness: labels `[0]`, the 1×1 finite matrix `[[5]]`, `top_k = [1]`. -/
theorem top_k_accuracy_mutates_witness :
    ([1] : List Nat) ≠ [] ∧ List.Sorted (· ≤ ·) ([1] : List Nat) ∧
      1 ≤ ([1] : List Nat).getLastD 0 ∧
      (∃ row ∈ [[(some 5 : Option Int)]], ∃ x ∈ row, x ≠ none) ∧
      (top_k_accuracy [0] [[(some 5 : Option Int)]] [1]).2 ≠ [[(some 5 : Option Int)]] :=
  ⟨by decide, List.sorted_singleton 1, by decide,
    ⟨[some 5], by simp, some 5, by simp, by simp⟩,
    top_k_accuracy_mutates [0] [[(some 5 : Option Int)]] [1] (by decide)
      (List.sorted_singleton 1) (by decide)
      ⟨[some 5], by simp, some 5, by simp, by simp⟩⟩

end Daluke
